import Mathlib

/-!
Shallow embedding of `text_frequency_analyzer.py` (the pydantic variant;
the hyphenated variant `text-frequency-analyzer.py` shares `clean_text`,
the tokenize/filter step and `Counter(...).most_common(top_n)`).

Modelling conventions:
* Python strings are Lean `String`s; character classes (`\w`, `\s`,
  `str.isalpha`, `str.lower`) are modelled on the ASCII range via the
  corresponding `Char` predicates, which is the range every claim and
  every test vector of the repository exercises.
* `collections.Counter(list)` is an insertion-ordered association list
  (keys in first-occurrence order, as Python dicts guarantee), and
  `Counter.most_common(n)` is a stable sort by count descending followed
  by `take n` (CPython documents `most_common`/`heapq.nlargest` as
  equivalent to a stable `sorted(..., reverse=True)[:n]`).
* pydantic model construction is a total function into `Option`: `none`
  is a raised `ValidationError`.
* File IO is abstracted: `analyze_file` receives the outcome of
  `filepath.read_text` as an `Except` value (`.error` = any IO
  exception; the sample-file fallback only changes which content is
  read).  Python floats are modelled as exact rationals; `round(x, 2)`
  as rational rounding at 2 decimals (no claim depends on binary-float
  tie behaviour).
-/

namespace TFA

/-- Characters of the regex class `\w` in ASCII range: letters, digits,
underscore. -/
def isWordChar (c : Char) : Bool :=
  c.isAlpha || c.isDigit || c == '_'

/-- Characters kept by `re.sub(r'[^\w\s]', '', ·)`: word characters and
whitespace. -/
def keepChar (c : Char) : Bool :=
  isWordChar c || c.isWhitespace

/-- The substitution `re.sub(r'[^\w\s]', '', ·)` as a character-by-character
scan deleting every character outside the class. -/
def subNonWordChars : List Char → List Char
  | [] => []
  | c :: cs => if keepChar c then c :: subNonWordChars cs else subNonWordChars cs

/-- `TextAnalyzer.clean_text`: lowercase the whole input, then delete every
character that is not a word character or whitespace (source line 77:
`re.sub(r'[^\w\s]', '', text.lower())`). -/
def clean_text (s : String) : String :=
  ⟨subNonWordChars (s.data.map Char.toLower)⟩

/-- Accumulator-passing scan behind `str.split()`. -/
def splitAux : List Char → List Char → List String
  | [], acc => if acc.isEmpty then [] else [⟨acc.reverse⟩]
  | c :: cs, acc =>
    if c.isWhitespace then
      if acc.isEmpty then splitAux cs [] else ⟨acc.reverse⟩ :: splitAux cs []
    else
      splitAux cs (c :: acc)

/-- Python `str.split()` with no argument: split on whitespace runs,
discarding empty tokens (source line 111: `cleaned.split()`). -/
def pySplit (s : String) : List String :=
  splitAux s.data []

/-- One step of `collections.Counter` construction: increment the count of
`w` if present, else append `(w, 1)` at the end (dict insertion order). -/
def bump (w : String) : List (String × Nat) → List (String × Nat)
  | [] => [(w, 1)]
  | (x, c) :: rest => if x = w then (x, c + 1) :: rest else (x, c) :: bump w rest

/-- `collections.Counter(filtered_words)` (source line 121): an
insertion-ordered association list, keys in first-occurrence order. -/
def counter (ws : List String) : List (String × Nat) :=
  ws.foldl (fun acc w => bump w acc) []

/-- Stable insertion into a count-descending list: the inserted entry goes
before the first entry whose count is no larger (entries already present
came earlier in the original order). -/
def insertDesc (p : String × Nat) : List (String × Nat) → List (String × Nat)
  | [] => [p]
  | q :: rest => if q.2 ≤ p.2 then p :: q :: rest else q :: insertDesc p rest

/-- Stable insertion sort by count descending. -/
def sortDesc : List (String × Nat) → List (String × Nat)
  | [] => []
  | p :: rest => insertDesc p (sortDesc rest)

/-- `Counter.most_common(n)` (source line 127): entries sorted by count
descending, ties kept in insertion (first-occurrence) order, truncated to
the first `n`. -/
def most_common (counts : List (String × Nat)) (n : Nat) : List (String × Nat) :=
  (sortDesc counts).take n

/-- Keys of `counter ws`, computed directly from the token stream: each
word appears once, at the position of its first occurrence. -/
def firstOccurrences (ws : List String) : List String :=
  ws.foldl (fun acc w => if w ∈ acc then acc else acc ++ [w]) []

/-- `AnalysisConfig` (source lines 16-32). -/
structure AnalysisConfig where
  filepath : String
  top_n : Nat
  min_length : Nat
  deriving DecidableEq, Repr

/-- pydantic construction of `AnalysisConfig`: `top_n` has `ge=1, le=100`,
`min_length` has `ge=1, le=20` (source lines 20-21); out-of-range values
raise `ValidationError` (`none`). -/
def mkAnalysisConfig (filepath : String) (top_n min_length : Nat) :
    Option AnalysisConfig :=
  if 1 ≤ top_n ∧ top_n ≤ 100 ∧ 1 ≤ min_length ∧ min_length ≤ 20 then
    some ⟨filepath, top_n, min_length⟩
  else
    none

/-- `WordFrequency` (source lines 35-48). -/
structure WordFrequency where
  word : String
  count : Nat
  percentage : ℚ
  deriving DecidableEq, Repr

/-- Python `str.isalpha`: non-empty and every character alphabetic. -/
def pyIsAlpha (s : String) : Bool :=
  !s.data.isEmpty && s.data.all Char.isAlpha

/-- Python `str.lower`. -/
def pyLower (s : String) : String :=
  ⟨s.data.map Char.toLower⟩

/-- pydantic construction of `WordFrequency`: `word` has `min_length=1`,
`count` has `ge=1`, `percentage` has `ge=0, le=100`, and `validate_word`
requires `word.isalpha()` and stores `word.lower()` (source lines 38-48). -/
def mkWordFrequency (word : String) (count : Nat) (percentage : ℚ) :
    Option WordFrequency :=
  if 1 ≤ word.length ∧ 1 ≤ count ∧ 0 ≤ percentage ∧ percentage ≤ 100 ∧
      pyIsAlpha word then
    some ⟨pyLower word, count, percentage⟩
  else
    none

/-- `AnalysisResult` (source lines 51-68). -/
structure AnalysisResult where
  filepath : String
  total_words : Nat
  unique_words : Nat
  word_frequencies : List WordFrequency
  config : AnalysisConfig
  deriving DecidableEq, Repr

/-- pydantic construction of `AnalysisResult`: the model validator
`validate_word_counts` rejects `len(word_frequencies) > unique_words`
(source lines 60-65). -/
def mkAnalysisResult (filepath : String) (total_words unique_words : Nat)
    (word_frequencies : List WordFrequency) (config : AnalysisConfig) :
    Option AnalysisResult :=
  if word_frequencies.length ≤ unique_words then
    some ⟨filepath, total_words, unique_words, word_frequencies, config⟩
  else
    none

/-- Python `round(q, 2)` over exact rationals: round half up at the second
decimal (CPython rounds the nearest binary double half to even; no claim
depends on the tie behaviour). -/
def round2 (q : ℚ) : ℚ :=
  ((q * 100 + 1/2).floor : ℚ) / 100

/-- The loop of source lines 126-134: build a `WordFrequency` for each
ranked entry with `percentage = round((count / total_words) * 100, 2)`;
the first `ValidationError` aborts the whole loop (`none`). -/
def buildFrequencies (total_words : Nat) :
    List (String × Nat) → Option (List WordFrequency)
  | [] => some []
  | p :: rest =>
    match mkWordFrequency p.1 p.2 (round2 ((p.2 : ℚ) / (total_words : ℚ) * 100)) with
    | none => none
    | some wf =>
      match buildFrequencies total_words rest with
      | none => none
      | some wfs => some (wf :: wfs)

/-- Outcome of one `TextAnalyzer.analyze_file` call.  The Python function
returns `Optional[AnalysisResult]`; the three constructors record which
exit was taken (successful return, the explicit no-words `return None` of
line 118, or the blanket `except Exception` of lines 145-147, which prints
an error message and returns `None`). -/
inductive AnalyzeOutcome where
  | ok (r : AnalysisResult)
  | noWords
  | caughtError
  deriving DecidableEq, Repr

/-- The return value the Python caller sees (`Optional[AnalysisResult]`):
both the no-words exit and the caught-exception exit return `None`. -/
def AnalyzeOutcome.result : AnalyzeOutcome → Option AnalysisResult
  | .ok r => some r
  | .noWords => none
  | .caughtError => none

/-- The console notice printed on the no-words exit (source line 117). -/
def AnalyzeOutcome.notice : AnalyzeOutcome → Option String
  | .noWords => some "No words found matching the criteria."
  | _ => none

/-- Tokens of the cleaned content kept by the minimum-length filter
(source lines 110-114). -/
def filteredWords (content : String) (min_length : Nat) : List String :=
  (pySplit (clean_text content)).filter (fun w => min_length ≤ w.length)

/-- `TextAnalyzer.analyze_file` (source lines 93-147), with the file read
abstracted into `readResult` (the outcome of `filepath.read_text`; any IO
exception lands in the blanket `except` handler). -/
def analyze_file (readResult : Except String String) (config : AnalysisConfig) :
    AnalyzeOutcome :=
  match readResult with
  | .error _ => .caughtError
  | .ok content =>
    let filtered_words := filteredWords content config.min_length
    if filtered_words.isEmpty then
      .noWords
    else
      let word_counts := counter filtered_words
      let total_words := filtered_words.length
      let unique_words := word_counts.length
      match buildFrequencies total_words (most_common word_counts config.top_n) with
      | none => .caughtError
      | some wfs =>
        match mkAnalysisResult config.filepath total_words unique_words wfs config with
        | none => .caughtError
        | some r => .ok r

/-- `analyze_file` on a successfully read content. -/
def analyzeContent (content : String) (config : AnalysisConfig) : AnalyzeOutcome :=
  analyze_file (.ok content) config

end TFA

namespace TFA

theorem subNonWordChars_eq_filter (cs : List Char) :
    subNonWordChars cs = cs.filter keepChar := by
  induction cs with
  | nil => rfl
  | cons c cs ih =>
    by_cases h : keepChar c
    · simp [subNonWordChars, h, ih, List.filter_cons]
    · simp [subNonWordChars, h, ih, List.filter_cons]

theorem char_toNat_ofNat {n : Nat} (h : n.isValidChar) :
    (Char.ofNat n).toNat = n := by
  simp only [Char.ofNat, dif_pos h, Char.ofNatAux, Char.toNat, UInt32.toNat,
    BitVec.toNat_ofNatLt]

theorem toLower_toLower (c : Char) : c.toLower.toLower = c.toLower := by
  show Char.toLower (Char.toLower c) = Char.toLower c
  unfold Char.toLower
  by_cases h : c.toNat ≥ 65 ∧ c.toNat ≤ 90
  · have hv : (c.toNat + 32).isValidChar := Or.inl (by omega)
    rw [if_pos h]
    rw [if_neg]
    rw [char_toNat_ofNat hv]
    omega
  · rw [if_neg h, if_neg h]

end TFA

namespace TFA

theorem bump_map_fst (w : String) (l : List (String × Nat)) :
    (bump w l).map Prod.fst =
      if w ∈ l.map Prod.fst then l.map Prod.fst else l.map Prod.fst ++ [w] := by
  induction l with
  | nil => simp [bump]
  | cons q l ih =>
    obtain ⟨x, c⟩ := q
    by_cases h : x = w
    · subst h
      simp [bump]
    · have hwx : w ≠ x := fun hh => h hh.symm
      simp only [bump, if_neg h, List.map_cons, ih]
      by_cases hm : w ∈ l.map Prod.fst
      · simp [List.mem_cons, hwx, hm]
      · simp [List.mem_cons, hwx, hm]

theorem bump_sum (w : String) (l : List (String × Nat)) :
    ((bump w l).map Prod.snd).sum = ((l.map Prod.snd).sum) + 1 := by
  induction l with
  | nil => simp [bump]
  | cons q l ih =>
    obtain ⟨x, c⟩ := q
    by_cases h : x = w
    · subst h; simp [bump]; omega
    · simp [bump, if_neg h, ih]; omega

theorem bump_forall {P : String → Prop} {l : List (String × Nat)} {w : String}
    (hl : ∀ p ∈ l, 1 ≤ p.2 ∧ P p.1) (hw : P w) :
    ∀ p ∈ bump w l, 1 ≤ p.2 ∧ P p.1 := by
  induction l with
  | nil =>
    intro p hp
    simp [bump] at hp
    subst hp
    exact ⟨Nat.le_refl 1, hw⟩
  | cons q l ih =>
    obtain ⟨x, c⟩ := q
    intro p hp
    by_cases h : x = w
    · subst h
      simp [bump] at hp
      rcases hp with hp | hp
      · subst hp
        refine ⟨by omega, (hl (x, c) (by simp)).2⟩
      · exact hl p (List.mem_cons_of_mem _ hp)
    · simp only [bump, if_neg h, List.mem_cons] at hp
      rcases hp with hp | hp
      · subst hp
        exact hl (x, c) (by simp)
      · exact ih (fun p hp => hl p (List.mem_cons_of_mem _ hp)) p hp

theorem counter_aux_sum (ws : List String) (acc : List (String × Nat)) :
    (((ws.foldl (fun a w => bump w a) acc)).map Prod.snd).sum =
      ((acc.map Prod.snd).sum) + ws.length := by
  induction ws generalizing acc with
  | nil => simp
  | cons w ws ih =>
    simp only [List.foldl_cons, ih, bump_sum, List.length_cons]
    omega

theorem counter_sum (ws : List String) :
    (((counter ws)).map Prod.snd).sum = ws.length := by
  simpa using counter_aux_sum ws []

theorem counter_aux_forall {P : String → Prop} (ws : List String)
    (acc : List (String × Nat)) (hws : ∀ w ∈ ws, P w)
    (hacc : ∀ p ∈ acc, 1 ≤ p.2 ∧ P p.1) :
    ∀ p ∈ ws.foldl (fun a w => bump w a) acc, 1 ≤ p.2 ∧ P p.1 := by
  induction ws generalizing acc with
  | nil => simpa using hacc
  | cons w ws ih =>
    simp only [List.foldl_cons]
    exact ih (bump w acc) (fun v hv => hws v (List.mem_cons_of_mem _ hv))
      (bump_forall hacc (hws w (by simp)))

theorem counter_forall {P : String → Prop} {ws : List String}
    (hws : ∀ w ∈ ws, P w) : ∀ p ∈ counter ws, 1 ≤ p.2 ∧ P p.1 :=
  counter_aux_forall ws [] hws (by simp)

theorem counter_aux_fst (ws : List String) (acc : List (String × Nat)) :
    (ws.foldl (fun a w => bump w a) acc).map Prod.fst =
      ws.foldl (fun a w => if w ∈ a then a else a ++ [w]) (acc.map Prod.fst) := by
  induction ws generalizing acc with
  | nil => simp
  | cons w ws ih =>
    simp only [List.foldl_cons, ih, bump_map_fst]

theorem counter_map_fst (ws : List String) :
    (counter ws).map Prod.fst = firstOccurrences ws := by
  simpa [firstOccurrences] using counter_aux_fst ws []

end TFA

namespace TFA

theorem insertDesc_perm (p : String × Nat) (l : List (String × Nat)) :
    (insertDesc p l).Perm (p :: l) := by
  induction l with
  | nil => simp [insertDesc]
  | cons q l ih =>
    by_cases h : q.2 ≤ p.2
    · simp [insertDesc, h]
    · simp only [insertDesc, if_neg h]
      exact List.Perm.trans (ih.cons q) (List.Perm.swap p q l)

theorem sortDesc_perm (l : List (String × Nat)) : (sortDesc l).Perm l := by
  induction l with
  | nil => simp [sortDesc]
  | cons p l ih =>
    exact List.Perm.trans (insertDesc_perm p (sortDesc l)) (ih.cons p)

theorem insertDesc_pairwise {p : String × Nat} {l : List (String × Nat)}
    (hl : l.Pairwise (fun a b => b.2 ≤ a.2)) :
    (insertDesc p l).Pairwise (fun a b => b.2 ≤ a.2) := by
  induction l with
  | nil => simp [insertDesc]
  | cons q l ih =>
    rcases List.pairwise_cons.mp hl with ⟨hq, hl'⟩
    by_cases h : q.2 ≤ p.2
    · simp only [insertDesc, if_pos h]
      refine List.pairwise_cons.mpr ⟨?_, hl⟩
      intro b hb
      rcases List.mem_cons.mp hb with hb | hb
      · subst hb; exact h
      · exact Nat.le_trans (hq b hb) h
    · simp only [insertDesc, if_neg h]
      refine List.pairwise_cons.mpr ⟨?_, ih hl'⟩
      intro b hb
      have hb' : b ∈ p :: l := (insertDesc_perm p l).mem_iff.mp hb
      rcases List.mem_cons.mp hb' with hb' | hb'
      · subst hb'; omega
      · exact hq b hb'

theorem sortDesc_pairwise (l : List (String × Nat)) :
    (sortDesc l).Pairwise (fun a b => b.2 ≤ a.2) := by
  induction l with
  | nil => simp [sortDesc]
  | cons p l ih => exact insertDesc_pairwise ih

theorem insertDesc_filter (p : String × Nat) (l : List (String × Nat)) (c : Nat) :
    (insertDesc p l).filter (fun q => q.2 == c) =
      if p.2 = c then p :: l.filter (fun q => q.2 == c)
      else l.filter (fun q => q.2 == c) := by
  induction l with
  | nil =>
    by_cases hp : p.2 = c
    · simp [insertDesc, List.filter_cons, hp]
    · simp [insertDesc, List.filter_cons, hp]
  | cons q l ih =>
    by_cases h : q.2 ≤ p.2
    · rw [show insertDesc p (q :: l) = p :: q :: l from if_pos h]
      by_cases hp : p.2 = c
      · simp [List.filter_cons, hp]
      · simp [List.filter_cons, hp]
    · rw [show insertDesc p (q :: l) = q :: insertDesc p l from if_neg h]
      by_cases hp : p.2 = c
      · have hqc : ¬(q.2 = c) := by omega
        rw [if_pos hp]
        rw [List.filter_cons_of_neg (by simpa using hqc), ih, if_pos hp,
          List.filter_cons_of_neg (by simpa using hqc)]
      · rw [if_neg hp]
        by_cases hqc : q.2 = c
        · rw [List.filter_cons_of_pos (by simpa using hqc), ih, if_neg hp,
            List.filter_cons_of_pos (by simpa using hqc)]
        · rw [List.filter_cons_of_neg (by simpa using hqc), ih, if_neg hp,
            List.filter_cons_of_neg (by simpa using hqc)]

theorem sortDesc_filter (l : List (String × Nat)) (c : Nat) :
    (sortDesc l).filter (fun q => q.2 == c) = l.filter (fun q => q.2 == c) := by
  induction l with
  | nil => rfl
  | cons p l ih =>
    show (insertDesc p (sortDesc l)).filter (fun q => q.2 == c) = _
    rw [insertDesc_filter, ih]
    by_cases hp : p.2 = c
    · rw [if_pos hp, List.filter_cons_of_pos (by simpa using hp)]
    · rw [if_neg hp, List.filter_cons_of_neg (by simpa using hp)]

end TFA

namespace TFA

theorem mkWordFrequency_some {w : String} {c : Nat} {q : ℚ} {wf : WordFrequency}
    (h : mkWordFrequency w c q = some wf) :
    wf.word = pyLower w ∧ wf.count = c ∧ wf.percentage = q ∧ 1 ≤ c ∧
      pyIsAlpha w = true := by
  unfold mkWordFrequency at h
  split at h
  · rename_i hcond
    cases h
    exact ⟨rfl, rfl, rfl, hcond.2.1, hcond.2.2.2.2⟩
  · cases h

theorem mkWordFrequency_none_of_bad {w : String} {c : Nat} {q : ℚ}
    (h : pyIsAlpha w = false) : mkWordFrequency w c q = none := by
  unfold mkWordFrequency
  rw [if_neg]
  intro hcond
  rw [hcond.2.2.2.2] at h
  cases h

theorem mkAnalysisResult_some {fp : String} {t u : Nat} {wfs : List WordFrequency}
    {cfg : AnalysisConfig} {r : AnalysisResult}
    (h : mkAnalysisResult fp t u wfs cfg = some r) :
    r = ⟨fp, t, u, wfs, cfg⟩ ∧ wfs.length ≤ u := by
  unfold mkAnalysisResult at h
  split at h
  · rename_i hcond
    cases h
    exact ⟨rfl, hcond⟩
  · cases h

theorem buildFrequencies_counts {t : Nat} {ranked : List (String × Nat)}
    {wfs : List WordFrequency} (h : buildFrequencies t ranked = some wfs) :
    wfs.map WordFrequency.count = ranked.map Prod.snd := by
  induction ranked generalizing wfs with
  | nil =>
    unfold buildFrequencies at h
    cases h
    rfl
  | cons p rest ih =>
    unfold buildFrequencies at h
    split at h
    · cases h
    · rename_i wf hwf
      split at h
      · cases h
      · rename_i wfs' hwfs'
        cases h
        simp only [List.map_cons, ih hwfs', (mkWordFrequency_some hwf).2.1]

theorem buildFrequencies_mem {t : Nat} {ranked : List (String × Nat)}
    {wfs : List WordFrequency} (h : buildFrequencies t ranked = some wfs) :
    ∀ wf ∈ wfs, ∃ p ∈ ranked,
      mkWordFrequency p.1 p.2 (round2 ((p.2 : ℚ) / (t : ℚ) * 100)) = some wf := by
  induction ranked generalizing wfs with
  | nil =>
    unfold buildFrequencies at h
    cases h
    intro wf hwf
    cases hwf
  | cons p rest ih =>
    unfold buildFrequencies at h
    split at h
    · cases h
    · rename_i wf hwf
      split at h
      · cases h
      · rename_i wfs' hwfs'
        cases h
        intro v hv
        rcases List.mem_cons.mp hv with hv | hv
        · exact ⟨p, by simp, hv ▸ hwf⟩
        · rcases ih hwfs' v hv with ⟨p', hp', hmk⟩
          exact ⟨p', List.mem_cons_of_mem _ hp', hmk⟩

theorem buildFrequencies_none {t : Nat} {ranked : List (String × Nat)}
    (h : ∃ p ∈ ranked, pyIsAlpha p.1 = false) :
    buildFrequencies t ranked = none := by
  induction ranked with
  | nil => simp at h
  | cons p rest ih =>
    rcases h with ⟨q, hq, hbad⟩
    rcases List.mem_cons.mp hq with hq | hq
    · subst hq
      unfold buildFrequencies
      rw [mkWordFrequency_none_of_bad hbad]
    · unfold buildFrequencies
      split
      · rfl
      · rw [ih ⟨q, hq, hbad⟩]

end TFA

namespace TFA

theorem analyzeContent_noWords_of_empty {content : String} {cfg : AnalysisConfig}
    (h : filteredWords content cfg.min_length = []) :
    analyzeContent content cfg = .noWords := by
  unfold analyzeContent analyze_file
  simp [h]

theorem analyzeContent_ok_inv {content : String} {cfg : AnalysisConfig}
    {r : AnalysisResult} (h : analyzeContent content cfg = .ok r) :
    buildFrequencies (filteredWords content cfg.min_length).length
        (most_common (counter (filteredWords content cfg.min_length)) cfg.top_n) =
      some r.word_frequencies ∧
    r.total_words = (filteredWords content cfg.min_length).length ∧
    r.unique_words = (counter (filteredWords content cfg.min_length)).length ∧
    r.config = cfg := by
  unfold analyzeContent analyze_file at h
  simp only at h
  split at h
  · cases h
  · split at h
    · cases h
    · rename_i wfs hwfs
      split at h
      · cases h
      · rename_i r' hr'
        cases h
        rcases mkAnalysisResult_some hr' with ⟨hr, _⟩
        subst hr
        exact ⟨hwfs, rfl, rfl, rfl⟩

theorem analyzeContent_caughtError_of_build_none {content : String}
    {cfg : AnalysisConfig}
    (hne : filteredWords content cfg.min_length ≠ [])
    (hb : buildFrequencies (filteredWords content cfg.min_length).length
        (most_common (counter (filteredWords content cfg.min_length)) cfg.top_n) =
      none) :
    analyzeContent content cfg = .caughtError := by
  unfold analyzeContent analyze_file
  simp only
  rw [if_neg (by simpa using hne)]
  rw [hb]

end TFA

namespace TFA

/-- C7: the normalizer lowercases the whole input and then removes every
character that is not a letter, digit, underscore or whitespace, keeping
whitespace as-is: the three spec vectors, and the characterization of
`clean_text` as lowercasing followed by filtering on the kept class (a
total function of the input string). -/
theorem claim_C7_normalizer :
    clean_text "Hello, World! How are you?" = "hello world how are you" ∧
    clean_text ⟨['i', 's', 'n', Char.ofNat 39, 't']⟩ = "isnt" ∧
    clean_text "Python3" = "python3" ∧
    ∀ s : String, (clean_text s).data =
      (s.data.map Char.toLower).filter keepChar :=
  ⟨by decide, by decide, by decide, fun s => subNonWordChars_eq_filter _⟩

/-- C9: `clean_text` is idempotent, and every character of its output is a
word character or whitespace. -/
theorem claim_C9_normalizer_idempotent :
    (∀ s : String, clean_text (clean_text s) = clean_text s) ∧
    (∀ s : String, (clean_text s).data.all keepChar = true) := by
  have hdata : ∀ s : String, (clean_text s).data =
      (s.data.map Char.toLower).filter keepChar :=
    fun s => subNonWordChars_eq_filter _
  constructor
  · intro s
    have h1 : (clean_text s).data.map Char.toLower = (clean_text s).data := by
      have hid : ∀ l : List Char, (∀ c ∈ l, c.toLower = c) →
          l.map Char.toLower = l := by
        intro l h
        induction l with
        | nil => rfl
        | cons c cs ih =>
          simp only [List.map_cons, h c (by simp)]
          rw [ih (fun d hd => h d (by simp [hd]))]
      apply hid
      intro c hc
      rw [hdata s] at hc
      rcases List.mem_map.mp (List.mem_filter.mp hc).1 with ⟨d, _, hd⟩
      rw [← hd]
      exact toLower_toLower d
    apply String.ext
    show subNonWordChars ((clean_text s).data.map Char.toLower) = (clean_text s).data
    rw [h1, hdata s, subNonWordChars_eq_filter]
    simp [List.filter_filter]
  · intro s
    rw [List.all_eq_true]
    intro c hc
    rw [hdata s] at hc
    exact (List.mem_filter.mp hc).2

end TFA

namespace TFA

/-- C3: the ranked sequence is ordered by count descending; entries with
equal counts keep the insertion order of the counting step (the filter of
the ranked output at any fixed count is a prefix of the counter's entries
at that count), the counter's keys are in first-occurrence order of the
filtered token stream, and the output has `min top_n (number of distinct
words)` entries. -/
theorem claim_C3_ranker (ws : List String) (n : Nat) :
    (most_common (counter ws) n).Pairwise (fun a b => b.2 ≤ a.2) ∧
    (most_common (counter ws) n).length = min n (counter ws).length ∧
    (∀ c : Nat, ∃ t, (counter ws).filter (fun q => q.2 == c) =
      (most_common (counter ws) n).filter (fun q => q.2 == c) ++ t) ∧
    (counter ws).map Prod.fst = firstOccurrences ws := by
  refine ⟨?_, ?_, ?_, counter_map_fst ws⟩
  · exact (sortDesc_pairwise (counter ws)).sublist (List.take_sublist n _)
  · simp [most_common, List.length_take, (sortDesc_perm (counter ws)).length_eq]
  · intro c
    refine ⟨((sortDesc (counter ws)).drop n).filter (fun q => q.2 == c), ?_⟩
    rw [← sortDesc_filter (counter ws) c, ← List.filter_append, most_common,
      List.take_append_drop]

end TFA

namespace TFA

/-- C2: on the spec's sample content with `min_length = 2` (and the default
`top_n = 10`), the analysis returns a result with 8 total filtered tokens,
5 unique words, and `python` with count 3 ranked first. -/
theorem claim_C2_sample_analysis :
    ((analyzeContent "python is great python is fun python programming"
        ⟨"demo.txt", 10, 2⟩).result.map AnalysisResult.total_words = some 8) ∧
    ((analyzeContent "python is great python is fun python programming"
        ⟨"demo.txt", 10, 2⟩).result.map AnalysisResult.unique_words = some 5) ∧
    ((analyzeContent "python is great python is fun python programming"
        ⟨"demo.txt", 10, 2⟩).result.map
          (fun r => (r.word_frequencies.map fun wf => (wf.word, wf.count)).head?) =
      some (some ("python", 3))) := by
  refine ⟨?_, ?_, ?_⟩ <;> with_unfolding_all decide

/-- C4: every successfully constructed `AnalysisResult` has at most
`unique_words` frequency entries, and on every successful `analyze_file`
run the counts of the returned entries sum to at most `total_words`. -/
theorem claim_C4_result_invariants :
    (∀ (fp : String) (t u : Nat) (wfs : List WordFrequency)
        (cfg : AnalysisConfig) (r : AnalysisResult),
        mkAnalysisResult fp t u wfs cfg = some r →
        r.word_frequencies.length ≤ r.unique_words) ∧
    (∀ (content : String) (cfg : AnalysisConfig) (r : AnalysisResult),
        analyzeContent content cfg = .ok r →
        (r.word_frequencies.map WordFrequency.count).sum ≤ r.total_words) := by
  constructor
  · intro fp t u wfs cfg r h
    rcases mkAnalysisResult_some h with ⟨hr, hlen⟩
    subst hr
    exact hlen
  · intro content cfg r h
    rcases analyzeContent_ok_inv h with ⟨hb, ht, _, _⟩
    rw [ht, buildFrequencies_counts hb]
    have h2 : (((sortDesc (counter (filteredWords content cfg.min_length))).take
          cfg.top_n).map Prod.snd).sum +
        (((sortDesc (counter (filteredWords content cfg.min_length))).drop
          cfg.top_n).map Prod.snd).sum =
        ((counter (filteredWords content cfg.min_length)).map Prod.snd).sum := by
      rw [← List.sum_append, ← List.map_append, List.take_append_drop]
      exact ((sortDesc_perm _).map Prod.snd).sum_eq
    calc ((most_common (counter (filteredWords content cfg.min_length))
            cfg.top_n).map Prod.snd).sum
        ≤ ((counter (filteredWords content cfg.min_length)).map Prod.snd).sum := by
          rw [← h2]; exact Nat.le_add_right _ _
      _ = (filteredWords content cfg.min_length).length := counter_sum _

end TFA

namespace TFA

/-- Witness for C4 at concrete inputs: the result validator accepts one
entry against one unique word, and a concrete successful run ("python
python python", min_length 3) has entry counts summing to at most its
total. -/
theorem claim_C4_witness :
    ((⟨"f.txt", 3, 1, [⟨"python", 3, 100⟩], ⟨"f.txt", 10, 3⟩⟩ :
        AnalysisResult).word_frequencies).length ≤
      (⟨"f.txt", 3, 1, [⟨"python", 3, 100⟩], ⟨"f.txt", 10, 3⟩⟩ :
        AnalysisResult).unique_words ∧
    (((⟨"f.txt", 3, 1, [⟨"python", 3, 100⟩], ⟨"f.txt", 10, 3⟩⟩ :
        AnalysisResult).word_frequencies).map WordFrequency.count).sum ≤
      (⟨"f.txt", 3, 1, [⟨"python", 3, 100⟩], ⟨"f.txt", 10, 3⟩⟩ :
        AnalysisResult).total_words :=
  ⟨claim_C4_result_invariants.1 "f.txt" 3 1 [⟨"python", 3, 100⟩] ⟨"f.txt", 10, 3⟩
      ⟨"f.txt", 3, 1, [⟨"python", 3, 100⟩], ⟨"f.txt", 10, 3⟩⟩
      (by with_unfolding_all decide),
   claim_C4_result_invariants.2 "python python python" ⟨"f.txt", 10, 3⟩
      ⟨"f.txt", 3, 1, [⟨"python", 3, 100⟩], ⟨"f.txt", 10, 3⟩⟩
      (by with_unfolding_all decide)⟩

/-- C5: whenever no token survives the minimum-length filter the analysis
takes the no-words exit, whose emitted notice is exactly "No words found
matching the criteria." and whose returned value is the absent result,
reached without any exception. -/
theorem claim_C5_empty_result :
    (∀ (content : String) (cfg : AnalysisConfig),
        filteredWords content cfg.min_length = [] →
        analyzeContent content cfg = .noWords) ∧
    AnalyzeOutcome.noWords.notice = some "No words found matching the criteria." ∧
    AnalyzeOutcome.noWords.result = none :=
  ⟨fun _ _ h => analyzeContent_noWords_of_empty h, rfl, rfl⟩

/-- C6: the configuration validator rejects `top_n` 0 and 101 and accepts
1 and 100, and rejects `min_length` 0 and 21 and accepts 1 and 20. -/
theorem claim_C6_config_bounds (fp : String) :
    mkAnalysisConfig fp 0 3 = none ∧ mkAnalysisConfig fp 101 3 = none ∧
    (mkAnalysisConfig fp 1 3).isSome = true ∧
    (mkAnalysisConfig fp 100 3).isSome = true ∧
    mkAnalysisConfig fp 10 0 = none ∧ mkAnalysisConfig fp 10 21 = none ∧
    (mkAnalysisConfig fp 10 1).isSome = true ∧
    (mkAnalysisConfig fp 10 20).isSome = true := by
  unfold mkAnalysisConfig
  norm_num

/-- C8: the analysis is deterministic; two runs on the same content and
configuration produce the same outcome. -/
theorem claim_C8_deterministic (content : String) (cfg : AnalysisConfig)
    (o₁ o₂ : AnalyzeOutcome) (h₁ : analyzeContent content cfg = o₁)
    (h₂ : analyzeContent content cfg = o₂) : o₁ = o₂ :=
  h₁.symm.trans h₂

/-- Witness for C8 at a concrete input. -/
theorem claim_C8_witness :
    analyzeContent "python python python" ⟨"f.txt", 10, 3⟩ =
      analyzeContent "python python python" ⟨"f.txt", 10, 3⟩ :=
  claim_C8_deterministic "python python python" ⟨"f.txt", 10, 3⟩ _ _ rfl rfl

end TFA

namespace TFA

theorem pyLower_length (s : String) : (pyLower s).length = s.length := by
  rcases s with ⟨d⟩
  simp [pyLower]

/-- Witness for C5: the spec's empty-result input, content "a b c is it"
with `min_length = 10`. -/
theorem claim_C5_witness :
    analyzeContent "a b c is it" ⟨"f.txt", 10, 10⟩ = .noWords :=
  claim_C5_empty_result.1 "a b c is it" ⟨"f.txt", 10, 10⟩ (by decide)

/-- C10: every entry of a successful result has a count of at least 1 and
a word at least `min_length` characters long. -/
theorem claim_C10_entry_invariants (content : String) (cfg : AnalysisConfig)
    (r : AnalysisResult) (h : analyzeContent content cfg = .ok r) :
    ∀ wf ∈ r.word_frequencies,
      1 ≤ wf.count ∧ cfg.min_length ≤ wf.word.length := by
  rcases analyzeContent_ok_inv h with ⟨hb, _, _, _⟩
  intro wf hwf
  rcases buildFrequencies_mem hb wf hwf with ⟨p, hp, hmk⟩
  rcases mkWordFrequency_some hmk with ⟨hword, hcount, _, hc1, _⟩
  have hmem : p ∈ counter (filteredWords content cfg.min_length) :=
    (sortDesc_perm _).mem_iff.mp ((List.take_sublist _ _).subset hp)
  have hall : ∀ w ∈ filteredWords content cfg.min_length,
      cfg.min_length ≤ w.length := by
    intro w hw
    have := (List.mem_filter.mp hw).2
    simpa using this
  have hinv := counter_forall hall p hmem
  refine ⟨hcount ▸ hc1, ?_⟩
  have hlen : wf.word.length = p.1.length := by
    rw [hword, pyLower_length]
  rw [hlen]
  exact hinv.2

/-- Witness for C10 at a concrete successful run. -/
theorem claim_C10_witness :
    1 ≤ (⟨"python", 3, 100⟩ : WordFrequency).count ∧
    (⟨"g.txt", 10, 3⟩ : AnalysisConfig).min_length ≤
      (⟨"python", 3, 100⟩ : WordFrequency).word.length :=
  claim_C10_entry_invariants "python python python" ⟨"g.txt", 10, 3⟩
    ⟨"g.txt", 3, 1, [⟨"python", 3, 100⟩], ⟨"g.txt", 10, 3⟩⟩
    (by with_unfolding_all decide) ⟨"python", 3, 100⟩ (by simp)

end TFA

namespace TFA

/-- Counterexample to C1: on content whose ranked entries include the
non-alphabetic word "python3", `analyze_file` does not surface a failure
distinct from the IO channel: it takes the same caught-exception exit an
IO read error takes, and both return the identical absent value `None`. -/
theorem claim_C1_counterexample :
    analyzeContent "python3 python3" ⟨"f.txt", 10, 3⟩ = .caughtError ∧
    analyze_file (.error "Read error") ⟨"f.txt", 10, 3⟩ = .caughtError ∧
    (analyzeContent "python3 python3" ⟨"f.txt", 10, 3⟩).result =
      (analyze_file (.error "Read error") ⟨"f.txt", 10, 3⟩).result := by
  refine ⟨?_, rfl, ?_⟩ <;> with_unfolding_all decide

/-- C1 as amended: when the ranked entries include a word that is not
purely alphabetic, the `WordFrequency` construction failure is caught by
the blanket `except Exception` handler of `analyze_file`, which returns
the absent result `None` — the same return value an `IOFailure` produces
(only the printed message text differs); the failure does not propagate
to the caller as a distinct `ValidationFailure`. -/
theorem claim_C1_swallowed_validation (content : String) (cfg : AnalysisConfig)
    (hne : filteredWords content cfg.min_length ≠ [])
    (hbad : ∃ p ∈ most_common (counter (filteredWords content cfg.min_length))
        cfg.top_n, pyIsAlpha p.1 = false) :
    analyzeContent content cfg = .caughtError ∧
    (analyzeContent content cfg).result = none ∧
    ∀ e : String, analyze_file (.error e) cfg = .caughtError := by
  have hb := buildFrequencies_none
    (t := (filteredWords content cfg.min_length).length) hbad
  have h := analyzeContent_caughtError_of_build_none hne hb
  exact ⟨h, by rw [h]; rfl, fun e => rfl⟩

/-- Witness for the amended C1 at the concrete content "python3 python3". -/
theorem claim_C1_witness :
    analyzeContent "python3 python3" ⟨"g.txt", 10, 3⟩ = .caughtError :=
  (claim_C1_swallowed_validation "python3 python3" ⟨"g.txt", 10, 3⟩
    (by decide) (by decide)).1

end TFA
